import Mathlib

/-!
Verification of the claudefix terminal output compositor
(src/bin/claude-fixed.js) against its specification.

The development shallowly embeds the relevant parts of the program:

* `fcGo` / `filterCodes` and `gsGo` / `stripColors` — the SGR sanitizer
  `stripColors`, which scans a byte string for tokens matching the regex
  `ESC [ [0-9;]* m` and filters the parameter list of each matched token
  code by code.
* `SchedState` / `onData` / `processAndFlush` / `runSched` — the output
  buffer and debounced flush scheduler built around `outputBuffer`,
  `flushTimer`, `FLUSH_DELAY_MS`, `COALESCE_DELAY_MS` and
  `lastFullRenderTime`.
* `regionRewriteL` / `processOutput` — the scroll-region rewriting and the
  per-flush output transform.
* `ExitState` / `cleanupAndKill` / `onExitHandler` — the teardown paths run
  on terminating signals and on exit of the wrapped process.
* `stdinHandler` — the keyboard forwarding with the reserved hotkey.

Strings are modelled as `List Char` (the `data` of a `String`), numbers as
`Nat`.  The two scanners are written as one-character-per-step state
machines so that they are structurally recursive and evaluate inside the
kernel; the states encode the cursor advances (`i += 1/3/5`, regex resume
position) of the source loops.
-/

/-- A character the SGR-token regex accepts between `ESC [` and `m`:
a decimal digit or a semicolon (the character class `[0-9;]`). -/
def isParamChar (c : Char) : Bool := c.isDigit || c = ';'

/-- `parseInt(s, 10)` restricted to the non-empty digit strings that the
tokenizer can produce: the decimal value of the digit characters. -/
def val (s : String) : Nat :=
  s.data.foldl (fun a c => a * 10 + (c.toNat - 48)) 0

/-- Cursor state of the `while` loop of `stripColors` over the parameter
list: `normal` is the branch cascade at `codes[i]`; `copy n` / `skip n`
mean the loop is inside a multi-parameter group of which `n` further
parameters are to be pushed / dropped (the `i += 3` / `i += 5` advances). -/
inductive FCState
  | normal
  | copy (n : Nat)
  | skip (n : Nat)
deriving DecidableEq

/-- The per-token code filter: the `while` loop of `stripColors`, one list
element per step.  Each parameter is kept as a string (the JS code
compares `codes[i+1]` against the string `'5'`, so `'05'` would not match
a group lead-in) and its numeric value drives the branch selection, in
exactly the source's branch order.  `rest.head? = some "5" ∧ 2 ≤
rest.length` is `codes[i+1] === '5' && codes[i+2]` (all parameters are
non-empty strings, so truthiness is existence).  Note that the `40–49`
range test captures `48` before the dedicated `48;5;N` / `48;2;R;G;B`
branches below it can run, so those two branches are unreachable. -/
def fcGo : FCState → List String → List String
  | _, [] => []
  | FCState.copy n, c :: rest =>
    c :: fcGo (if n ≤ 1 then FCState.normal else FCState.copy (n - 1)) rest
  | FCState.skip n, _ :: rest =>
    fcGo (if n ≤ 1 then FCState.normal else FCState.skip (n - 1)) rest
  | FCState.normal, c :: rest =>
    if val c = 0 then "0" :: fcGo FCState.normal rest
    else if val c = 1 ∨ val c = 3 ∨ val c = 4 ∨ val c = 9 then
      c :: fcGo FCState.normal rest
    else if val c = 22 ∨ val c = 23 ∨ val c = 24 ∨ val c = 29 then
      c :: fcGo FCState.normal rest
    else if 30 ≤ val c ∧ val c ≤ 37 then c :: fcGo FCState.normal rest
    else if val c = 39 then "39" :: fcGo FCState.normal rest
    else if 90 ≤ val c ∧ val c ≤ 97 then c :: fcGo FCState.normal rest
    else if val c = 38 ∧ rest.head? = some "5" ∧ 2 ≤ rest.length then
      "38" :: fcGo (FCState.copy 2) rest
    else if val c = 38 ∧ rest.head? = some "2" ∧ 4 ≤ rest.length then
      "38" :: fcGo (FCState.copy 4) rest
    else if (40 ≤ val c ∧ val c ≤ 49) ∨ (100 ≤ val c ∧ val c ≤ 107) then
      fcGo FCState.normal rest
    else if val c = 48 ∧ rest.head? = some "5" then
      -- unreachable: `48` is already consumed by the `40–49` range above
      fcGo (FCState.skip 2) rest
    else if val c = 48 ∧ rest.head? = some "2" then
      -- unreachable for the same reason
      fcGo (FCState.skip 4) rest
    else if val c = 2 ∨ val c = 7 ∨ val c = 8 ∨ val c = 27 ∨ val c = 28 then
      fcGo FCState.normal rest
    else fcGo FCState.normal rest

/-- The `allowed` list the loop builds from one token's parameter list. -/
def filterCodes (codes : List String) : List String := fcGo FCState.normal codes

/-- Right-to-left worker for `splitSemis`: returns the run of non-semicolon
characters at the head of the input together with the completed groups to
its right. -/
def splitSemisCore : List Char → List Char × List String
  | [] => ([], [])
  | c :: rest =>
    let p := splitSemisCore rest
    if c = ';' then ([], if p.1 = [] then p.2 else String.mk p.1 :: p.2)
    else (c :: p.1, p.2)

/-- `params.split(';').filter(c => c !== '')` from `stripColors`. -/
def splitSemis (l : List Char) : List String :=
  let p := splitSemisCore l
  if p.1 = [] then p.2 else String.mk p.1 :: p.2

/-- `allowed.join(';')` as a character list. -/
def joinSemis : List String → List Char
  | [] => []
  | [s] => s.data
  | s :: rest => s.data ++ ';' :: joinSemis rest

/-- The replacement applied to one matched SGR token: `run` is the
character run between `ESC [` and `m`.  Empty parameter lists map to the
canonical reset, and a token whose every code is dropped maps to the empty
string. -/
def stripTokenL (run : List Char) : List Char :=
  let codes := splitSemis run
  if codes = [] then ['\x1b', '[', '0', 'm']
  else
    let a := filterCodes codes
    if a = [] then [] else '\x1b' :: '[' :: (joinSemis a ++ ['m'])

/-- Scanner state for `str.replace(/\x1b\[[0-9;]*m/g, token => ...)`:
`plain` is ordinary text, `esc` means the scanner just consumed an `ESC`
that may open a token, `tok acc` means it consumed `ESC [` followed by the
(reversed) parameter run `acc` of a candidate token. -/
inductive ScanMode
  | plain
  | esc
  | tok (acc : List Char)
deriving DecidableEq

/-- The global-regex scan of `stripColors`, one character per step.  A
candidate that fails to reach its `m` is emitted verbatim and scanning
resumes at the offending character, exactly as the regex engine resumes
matching at the next position after a failed attempt. -/
def gsGo : ScanMode → List Char → List Char
  | ScanMode.plain, [] => []
  | ScanMode.plain, c :: rest =>
    if c = '\x1b' then gsGo ScanMode.esc rest else c :: gsGo ScanMode.plain rest
  | ScanMode.esc, [] => ['\x1b']
  | ScanMode.esc, c :: rest =>
    if c = '[' then gsGo (ScanMode.tok []) rest
    else if c = '\x1b' then '\x1b' :: gsGo ScanMode.esc rest
    else '\x1b' :: c :: gsGo ScanMode.plain rest
  | ScanMode.tok acc, [] => '\x1b' :: '[' :: acc.reverse
  | ScanMode.tok acc, c :: rest =>
    if c = 'm' then stripTokenL acc.reverse ++ gsGo ScanMode.plain rest
    else if isParamChar c then gsGo (ScanMode.tok (c :: acc)) rest
    else if c = '\x1b' then ('\x1b' :: '[' :: acc.reverse) ++ gsGo ScanMode.esc rest
    else ('\x1b' :: '[' :: acc.reverse) ++ c :: gsGo ScanMode.plain rest

/-- `stripColors` on character lists. -/
def stripColorsL (l : List Char) : List Char := gsGo ScanMode.plain l

/-- The `stripColors` function of `claude-fixed.js`. -/
def stripColors (s : String) : String := String.mk (stripColorsL s.data)

/-! ### Specification-side checkers for the sanitizer's guarantees -/

/-- Scan of a parameter list for a forbidden code — a background
(`40–49`, `100–107`), dim (`2`), inverse (`7`), hidden (`8`) or their offs
(`27`, `28`) — read with the same parameter grouping as the source: the
counter is the number of remaining parameters of a kept color group, whose
values are color components rather than codes.  Written from the spec's
guarantee, not from the source. -/
def hbGo : Nat → List String → Bool
  | _, [] => false
  | n + 1, _ :: rest => hbGo n rest
  | 0, c :: rest =>
    if val c = 2 ∨ val c = 7 ∨ val c = 8 ∨ val c = 27 ∨ val c = 28 then true
    else if (40 ≤ val c ∧ val c ≤ 49) ∨ (100 ≤ val c ∧ val c ≤ 107) then true
    else if val c = 38 ∧ rest.head? = some "5" ∧ 2 ≤ rest.length then hbGo 2 rest
    else if val c = 38 ∧ rest.head? = some "2" ∧ 4 ≤ rest.length then hbGo 4 rest
    else hbGo 0 rest

/-- Whether a parameter list contains a background, dim, inverse or hidden
code. -/
def hasBad (l : List String) : Bool := hbGo 0 l

/-- Checks that a character list is `<params> m` with `params` drawn from
the class `[0-9;]`. -/
def checkPM : List Char → Bool
  | [] => false
  | c :: rest => if rest = [] then c == 'm' else isParamChar c && checkPM rest

/-- Checks that a character list is one syntactically valid `CSI <params> m`
token. -/
def isCSIm (l : List Char) : Bool :=
  match l with
  | '\x1b' :: '[' :: rest => checkPM rest
  | _ => false

/-- A sanitizer output is legal when it is empty or a single valid
`CSI <params> m` token. -/
def isEmptyOrCSIm (l : List Char) : Bool := l.isEmpty || isCSIm l

/-- A well-formed SGR parameter: a non-empty string of decimal digits. -/
def goodCode (s : String) : Prop :=
  s.data ≠ [] ∧ ∀ ch ∈ s.data, ch.isDigit = true

instance (s : String) : Decidable (goodCode s) := by
  unfold goodCode; infer_instance

/-- A parameter list built only from codes the sanitizer allows, with the
source's grouping: `0`, `1`, `3`, `4`, `9`, `22`, `23`, `24`, `29`,
`30–37`, `39`, `90–97` stand alone; `38;5;N` and `38;2;R;G;B` are complete
groups. -/
def allowedCodes : List String → Bool
  | [] => true
  | c :: rest =>
    if val c = 0 ∨ val c = 1 ∨ val c = 3 ∨ val c = 4 ∨ val c = 9 ∨
       val c = 22 ∨ val c = 23 ∨ val c = 24 ∨ val c = 29 ∨
       (30 ≤ val c ∧ val c ≤ 37) ∨ val c = 39 ∨
       (90 ≤ val c ∧ val c ≤ 97) then allowedCodes rest
    else if val c = 38 then
      match rest with
      | c1 :: _ :: rest2 =>
        if c1 = "5" then allowedCodes rest2
        else
          match rest2 with
          | _ :: _ :: rest4 => if c1 = "2" then allowedCodes rest4 else false
          | _ => false
      | _ => false
    else false

/-- Builds the `CSI <params> m` token holding the given parameter list. -/
def mkToken (codes : List String) : String :=
  String.mk ('\x1b' :: '[' :: (joinSemis codes ++ ['m']))

/-! ### Scroll-region rewriting and the per-flush output transform -/

/-- `String.prototype.replace` with a global literal pattern
`p :: ps`: leftmost, non-overlapping occurrences are substituted. -/
def replaceAllL (p : Char) (ps repl : List Char) : List Char → List Char
  | [] => []
  | c :: rest =>
    if (p :: ps).isPrefixOf (c :: rest) then
      repl ++ replaceAllL p ps repl (List.drop ps.length rest)
    else c :: replaceAllL p ps repl rest
termination_by l => l.length
decreasing_by
  · simpa using Nat.lt_succ_of_le (Nat.sub_le rest.length ps.length)
  · simp

/-- Replace every occurrence of `pat` by `repl`. -/
def replAll (pat repl l : List Char) : List Char :=
  match pat with
  | [] => l
  | p :: ps => replaceAllL p ps repl l

/-- The bare scroll-region reset `ESC [ r` (regex `/\x1b\[r/g`). -/
def bareResetTok : List Char := ['\x1b', '[', 'r']

/-- The region token `ESC [ 1 ; n r` (the template `` `\x1b[1;${n}r` ``). -/
def regionTok (n : Nat) : List Char :=
  '\x1b' :: '[' :: '1' :: ';' :: ((Nat.repr n).data ++ ['r'])

/-- `contentRows()` and the local computation in `setupScrollRegion`:
`Math.max(1, rows - footerRows)`. -/
def contentRowsOf (rows footerRows : Nat) : Nat := max 1 (rows - footerRows)

/-- The scroll-region interception in `processAndFlush`: first every bare
`ESC [ r` and then every full-height `ESC [ 1;rows r` is replaced by the
constrained `ESC [ 1;contentRows r`. -/
def regionRewriteL (rows footerRows : Nat) (l : List Char) : List Char :=
  replAll (regionTok rows) (regionTok (contentRowsOf rows footerRows))
    (replAll bareResetTok (regionTok (contentRowsOf rows footerRows)) l)

/-- The full-screen-clear sequence `ESC [ 2J`. -/
def clear2J : List Char := ['\x1b', '[', '2', 'J']

/-- `output.includes(pat)`. -/
def containsPat (pat : List Char) : List Char → Bool
  | [] => pat.isEmpty
  | c :: rest => pat.isPrefixOf (c :: rest) || containsPat pat rest

/-- The feature/environment snapshot that configures a flush:
`shouldStrip` is `config.colorStripping && CLAUDE_STRIP_BG_COLORS !== '0'
&& !isAppleTerminal`, `showFooter`/`sshMode` gate the compositor, `isMac`
gates the Linux-only fixes, and `rows`/`footerRows` are the geometry. -/
structure FlushConfig where
  shouldStrip : Bool
  showFooter : Bool
  sshMode : Bool
  isMac : Bool
  rows : Nat
  footerRows : Nat

/-- The body of `processAndFlush` applied to a non-empty buffer: strip
colors if enabled, intercept scroll-region resets, inject the scrollback
clear after each full clear, and on the very first flush prepend the
startup clear+home.  Returns the written bytes and the updated
`startupCleared` flag. -/
def processOutput (cfg : FlushConfig) (startupCleared : Bool) (s : List Char) :
    List Char × Bool :=
  let o1 := if cfg.shouldStrip then stripColorsL s else s
  let o2 := if cfg.showFooter = true ∧ cfg.sshMode = false then
      regionRewriteL cfg.rows cfg.footerRows o1
    else o1
  let o3 := if cfg.isMac = false ∧ containsPat clear2J o2 = true then
      replAll clear2J ('\x1b' :: '[' :: '2' :: 'J' :: '\x1b' :: '[' :: '3' :: 'J' :: []) o2
    else o2
  if cfg.isMac = false ∧ startupCleared = false then
    (('\x1b' :: '[' :: '2' :: 'J' :: '\x1b' :: '[' :: '3' :: 'J' :: '\x1b' :: '[' :: 'H' :: []) ++ o3, true)
  else (o3, startupCleared)

/-! ### The output buffer / flush scheduler -/

/-- `FLUSH_DELAY_MS`: the base debounce delay D1. -/
def FLUSH_DELAY_MS : Nat := 16

/-- `COALESCE_DELAY_MS`: the extended delay D2 for rapid full repaints. -/
def COALESCE_DELAY_MS : Nat := 80

/-- The delay chosen in `ptyProcess.onData`:
`(Date.now() - lastFullRenderTime) < 200 ? COALESCE_DELAY_MS :
FLUSH_DELAY_MS`. -/
def chooseDelay (now lastFullRenderTime : Nat) : Nat :=
  if now - lastFullRenderTime < 200 then COALESCE_DELAY_MS else FLUSH_DELAY_MS

/-- Scheduler state: `buffer` is `outputBuffer`, `deadline` the pending
`flushTimer`'s absolute firing time, `flushes` records every performed
flush as (buffered bytes, written bytes). -/
structure SchedState where
  buffer : List Char
  deadline : Option Nat
  lastFullRenderTime : Nat
  startupCleared : Bool
  exiting : Bool
  flushes : List (List Char × List Char)

/-- The session-start scheduler state. -/
def initSched : SchedState :=
  { buffer := [], deadline := none, lastFullRenderTime := 0,
    startupCleared := false, exiting := false, flushes := [] }

/-- `processAndFlush`: clear the timer, and unless the buffer is empty or
the session is exiting, process the whole buffered span and write it. -/
def processAndFlush (cfg : FlushConfig) (st : SchedState) : SchedState :=
  if st.buffer = [] ∨ st.exiting = true then { st with deadline := none }
  else
    { st with
      deadline := none
      buffer := []
      startupCleared := (processOutput cfg st.startupCleared st.buffer).2
      flushes := st.flushes ++ [(st.buffer, (processOutput cfg st.startupCleared st.buffer).1)] }

/-- `ptyProcess.onData` at wall-clock time `t`: accumulate the chunk and
reset the flush timer with the adaptively chosen delay. -/
def onData (t : Nat) (chunk : List Char) (st : SchedState) : SchedState :=
  if st.exiting = true then st
  else
    { st with
      buffer := st.buffer ++ chunk
      deadline := some (t + chooseDelay t st.lastFullRenderTime) }

/-- Drives the scheduler over a time-stamped chunk list: a pending timer
whose deadline has passed fires before the next chunk is handled, and a
timer still pending after the last chunk fires at its deadline. -/
def runSched (cfg : FlushConfig) : List (Nat × List Char) → SchedState → SchedState
  | [], st =>
    match st.deadline with
    | some _ => processAndFlush cfg st
    | none => st
  | (t, chunk) :: rest, st =>
    let st1 :=
      match st.deadline with
      | some d => if d ≤ t then processAndFlush cfg st else st
      | none => st
    runSched cfg rest (onData t chunk st1)

/-! ### Teardown on signals and on exit of the wrapped process -/

/-- One write to the real terminal during teardown: a raw flush of the
remaining buffer, the region-reset/clear/home sequence
`ESC[r ESC[2J ESC[3J ESC[H`, or the exit banner. -/
inductive TermWrite
  | raw (bytes : List Char)
  | teardown
  | banner
deriving DecidableEq

/-- State shared by the two teardown paths. -/
structure ExitState where
  exiting : Bool
  flushTimer : Bool
  outputBuffer : List Char
  writes : List TermWrite

/-- `cleanupAndKill(signal)`: mark exiting, cancel timers, flush any
buffered bytes, emit the teardown sequence (footer mode only), draw the
exit banner, then forward the signal to the wrapped process. -/
def cleanupAndKill (sshMode showFooter : Bool) (st : ExitState) : ExitState :=
  let st1 := { st with exiting := true, flushTimer := false }
  let st2 :=
    if st1.outputBuffer ≠ [] then
      { st1 with
        writes := st1.writes ++ [TermWrite.raw st1.outputBuffer]
        outputBuffer := [] }
    else st1
  let st3 :=
    if sshMode = false ∧ showFooter = true then
      { st2 with writes := st2.writes ++ [TermWrite.teardown] }
    else st2
  { st3 with writes := st3.writes ++ [TermWrite.banner] }

/-- The `ptyProcess.onExit` handler: the same sequence, run unconditionally
when the wrapped process exits — it does not test `exiting` first. -/
def onExitHandler (sshMode showFooter : Bool) (st : ExitState) : ExitState :=
  let st1 := { st with exiting := true, flushTimer := false }
  let st2 :=
    if st1.outputBuffer ≠ [] then
      { st1 with
        writes := st1.writes ++ [TermWrite.raw st1.outputBuffer]
        outputBuffer := [] }
    else st1
  let st3 :=
    if sshMode = false ∧ showFooter = true then
      { st2 with writes := st2.writes ++ [TermWrite.teardown] }
    else st2
  { st3 with writes := st3.writes ++ [TermWrite.banner] }

/-! ### Keyboard forwarding -/

/-- The three byte sequences the stdin handler recognises as the
Ctrl+Shift+H hotkey. -/
def hotkeySeqs : List String := ["\x1b[72;6u", "\x1b[104;6u", "\x08"]

/-- The `process.stdin.on('data')` handler: a chunk equal to one of the
hotkey encodings opens the website and is consumed (`none`); every other
chunk is written to the wrapped process verbatim. -/
def stdinHandler (data : String) : Option String :=
  if data = "\x1b[72;6u" ∨ data = "\x1b[104;6u" ∨ data = "\x08" then none
  else some data

/-- The bytes the wrapped process receives from a sequence of stdin
chunks. -/
def forwardedWrites (chunks : List String) : List String :=
  chunks.filterMap stdinHandler

/-! ### Unfolding lemmas for the code filter -/

theorem fc_unfold (c : String) (rest : List String) :
    fcGo FCState.normal (c :: rest) =
      (if val c = 0 then "0" :: fcGo FCState.normal rest
      else if val c = 1 ∨ val c = 3 ∨ val c = 4 ∨ val c = 9 then
        c :: fcGo FCState.normal rest
      else if val c = 22 ∨ val c = 23 ∨ val c = 24 ∨ val c = 29 then
        c :: fcGo FCState.normal rest
      else if 30 ≤ val c ∧ val c ≤ 37 then c :: fcGo FCState.normal rest
      else if val c = 39 then "39" :: fcGo FCState.normal rest
      else if 90 ≤ val c ∧ val c ≤ 97 then c :: fcGo FCState.normal rest
      else if val c = 38 ∧ rest.head? = some "5" ∧ 2 ≤ rest.length then
        "38" :: fcGo (FCState.copy 2) rest
      else if val c = 38 ∧ rest.head? = some "2" ∧ 4 ≤ rest.length then
        "38" :: fcGo (FCState.copy 4) rest
      else if (40 ≤ val c ∧ val c ≤ 49) ∨ (100 ≤ val c ∧ val c ≤ 107) then
        fcGo FCState.normal rest
      else if val c = 48 ∧ rest.head? = some "5" then
        fcGo (FCState.skip 2) rest
      else if val c = 48 ∧ rest.head? = some "2" then
        fcGo (FCState.skip 4) rest
      else if val c = 2 ∨ val c = 7 ∨ val c = 8 ∨ val c = 27 ∨ val c = 28 then
        fcGo FCState.normal rest
      else fcGo FCState.normal rest) := rfl

theorem fc_copy_two (a b : String) (t : List String) :
    fcGo (FCState.copy 2) (a :: b :: t) = a :: b :: fcGo FCState.normal t := rfl

theorem fc_copy_four (a b d e : String) (t : List String) :
    fcGo (FCState.copy 4) (a :: b :: d :: e :: t) =
      a :: b :: d :: e :: fcGo FCState.normal t := rfl

theorem fc_skip_drop :
    ∀ (l : List String) (n : Nat), 1 ≤ n →
      fcGo (FCState.skip n) l = fcGo FCState.normal (List.drop n l) := by
  intro l
  induction l with
  | nil => intro n _; cases n <;> rfl
  | cons c rest ih =>
    intro n hn
    match n, hn with
    | 1, _ => rfl
    | (m + 2), _ =>
      show fcGo (if m + 2 ≤ 1 then FCState.normal else FCState.skip (m + 2 - 1)) rest = _
      have h1 : ¬ (m + 2 ≤ 1) := by omega
      rw [if_neg h1]
      have h2 : m + 2 - 1 = m + 1 := by omega
      rw [h2, ih (m + 1) (by omega)]
      rfl

theorem fcu_zero (t : List String) :
    fcGo FCState.normal ("0" :: t) = "0" :: fcGo FCState.normal t := rfl

theorem fcu_39 (t : List String) :
    fcGo FCState.normal ("39" :: t) = "39" :: fcGo FCState.normal t := rfl

theorem fcu_38_5 (x : String) (t : List String) :
    fcGo FCState.normal ("38" :: "5" :: x :: t) =
      "38" :: "5" :: x :: fcGo FCState.normal t := by
  have hp : val "38" = 38 ∧ ("5" :: x :: t).head? = some "5" ∧
      2 ≤ ("5" :: x :: t).length :=
    ⟨by decide, rfl, by simp only [List.length_cons]; omega⟩
  rw [fc_unfold, if_neg (by decide), if_neg (by decide), if_neg (by decide),
    if_neg (by decide), if_neg (by decide), if_neg (by decide), if_pos hp,
    fc_copy_two]

theorem fcu_38_2 (r g b : String) (t : List String) :
    fcGo FCState.normal ("38" :: "2" :: r :: g :: b :: t) =
      "38" :: "2" :: r :: g :: b :: fcGo FCState.normal t := by
  have hq : ¬ (val "38" = 38 ∧ ("2" :: r :: g :: b :: t).head? = some "5" ∧
      2 ≤ ("2" :: r :: g :: b :: t).length) := by
    rintro ⟨-, h, -⟩; simp at h
  have hp : val "38" = 38 ∧ ("2" :: r :: g :: b :: t).head? = some "2" ∧
      4 ≤ ("2" :: r :: g :: b :: t).length :=
    ⟨by decide, rfl, by simp only [List.length_cons]; omega⟩
  rw [fc_unfold, if_neg (by decide), if_neg (by decide), if_neg (by decide),
    if_neg (by decide), if_neg (by decide), if_neg (by decide), if_neg hq,
    if_pos hp, fc_copy_four]

/-! ### Idempotence of the code filter -/

theorem fc_idem_aux :
    ∀ (n : Nat) (l : List String), l.length ≤ n →
      fcGo FCState.normal (fcGo FCState.normal l) = fcGo FCState.normal l := by
  intro n
  induction n with
  | zero =>
    intro l hl
    have h : l = [] := List.length_eq_zero.mp (Nat.le_zero.mp hl)
    subst h; rfl
  | succ n ih =>
    intro l hl
    match l with
    | [] => rfl
    | c :: rest =>
      have hr : rest.length ≤ n := by
        have := hl; simp [List.length_cons] at this; omega
      by_cases hc0 : val c = 0
      · rw [fc_unfold, if_pos hc0, fcu_zero, ih rest hr]
      by_cases hc1 : val c = 1 ∨ val c = 3 ∨ val c = 4 ∨ val c = 9
      · rw [fc_unfold, if_neg hc0, if_pos hc1,
          fc_unfold, if_neg hc0, if_pos hc1, ih rest hr]
      by_cases hc2 : val c = 22 ∨ val c = 23 ∨ val c = 24 ∨ val c = 29
      · rw [fc_unfold, if_neg hc0, if_neg hc1, if_pos hc2,
          fc_unfold, if_neg hc0, if_neg hc1, if_pos hc2, ih rest hr]
      by_cases hc3 : 30 ≤ val c ∧ val c ≤ 37
      · rw [fc_unfold, if_neg hc0, if_neg hc1, if_neg hc2, if_pos hc3,
          fc_unfold, if_neg hc0, if_neg hc1, if_neg hc2, if_pos hc3, ih rest hr]
      by_cases hc4 : val c = 39
      · rw [fc_unfold, if_neg hc0, if_neg hc1, if_neg hc2, if_neg hc3, if_pos hc4,
          fcu_39, ih rest hr]
      by_cases hc5 : 90 ≤ val c ∧ val c ≤ 97
      · rw [fc_unfold, if_neg hc0, if_neg hc1, if_neg hc2, if_neg hc3, if_neg hc4,
          if_pos hc5, fc_unfold, if_neg hc0, if_neg hc1, if_neg hc2, if_neg hc3,
          if_neg hc4, if_pos hc5, ih rest hr]
      by_cases hc6 : val c = 38 ∧ rest.head? = some "5" ∧ 2 ≤ rest.length
      · obtain ⟨h38, hhead, hlen⟩ := hc6
        match rest, hhead, hlen with
        | a :: x :: rest2, hhead, hlen =>
          have ha : a = "5" := by simpa using hhead
          subst ha
          have h2 : rest2.length ≤ n := by
            simp [List.length_cons] at hr; omega
          rw [fc_unfold, if_neg hc0, if_neg hc1, if_neg hc2, if_neg hc3, if_neg hc4,
            if_neg hc5,
            if_pos (show val c = 38 ∧ ("5" :: x :: rest2).head? = some "5" ∧
              2 ≤ ("5" :: x :: rest2).length from
              ⟨h38, rfl, by simp only [List.length_cons]; omega⟩),
            fc_copy_two, fcu_38_5, ih rest2 h2]
      by_cases hc7 : val c = 38 ∧ rest.head? = some "2" ∧ 4 ≤ rest.length
      · obtain ⟨h38, hhead, hlen⟩ := hc7
        match rest, hhead, hlen with
        | a :: x :: y :: z :: rest4, hhead, hlen =>
          have ha : a = "2" := by simpa using hhead
          subst ha
          have h4 : rest4.length ≤ n := by
            simp [List.length_cons] at hr; omega
          rw [fc_unfold, if_neg hc0, if_neg hc1, if_neg hc2, if_neg hc3, if_neg hc4,
            if_neg hc5, if_neg hc6,
            if_pos (show val c = 38 ∧ ("2" :: x :: y :: z :: rest4).head? = some "2" ∧
              4 ≤ ("2" :: x :: y :: z :: rest4).length from
              ⟨h38, rfl, by simp only [List.length_cons]; omega⟩),
            fc_copy_four, fcu_38_2, ih rest4 h4]
      by_cases hc8 : (40 ≤ val c ∧ val c ≤ 49) ∨ (100 ≤ val c ∧ val c ≤ 107)
      · rw [fc_unfold, if_neg hc0, if_neg hc1, if_neg hc2, if_neg hc3, if_neg hc4,
          if_neg hc5, if_neg hc6, if_neg hc7, if_pos hc8, ih rest hr]
      by_cases hc9 : val c = 48 ∧ rest.head? = some "5"
      · rw [fc_unfold, if_neg hc0, if_neg hc1, if_neg hc2, if_neg hc3, if_neg hc4,
          if_neg hc5, if_neg hc6, if_neg hc7, if_neg hc8, if_pos hc9,
          fc_skip_drop rest 2 (by omega),
          ih (List.drop 2 rest) (by rw [List.length_drop]; omega)]
      by_cases hc10 : val c = 48 ∧ rest.head? = some "2"
      · rw [fc_unfold, if_neg hc0, if_neg hc1, if_neg hc2, if_neg hc3, if_neg hc4,
          if_neg hc5, if_neg hc6, if_neg hc7, if_neg hc8, if_neg hc9, if_pos hc10,
          fc_skip_drop rest 4 (by omega),
          ih (List.drop 4 rest) (by rw [List.length_drop]; omega)]
      by_cases hc11 : val c = 2 ∨ val c = 7 ∨ val c = 8 ∨ val c = 27 ∨ val c = 28
      · rw [fc_unfold, if_neg hc0, if_neg hc1, if_neg hc2, if_neg hc3, if_neg hc4,
          if_neg hc5, if_neg hc6, if_neg hc7, if_neg hc8, if_neg hc9, if_neg hc10,
          if_pos hc11, ih rest hr]
      · rw [fc_unfold, if_neg hc0, if_neg hc1, if_neg hc2, if_neg hc3, if_neg hc4,
          if_neg hc5, if_neg hc6, if_neg hc7, if_neg hc8, if_neg hc9, if_neg hc10,
          if_neg hc11, ih rest hr]

theorem filterCodes_idem (l : List String) :
    filterCodes (filterCodes l) = filterCodes l :=
  fc_idem_aux l.length l (Nat.le_refl _)

/-! ### The filtered output never contains a forbidden code -/

theorem hb_unfold (c : String) (rest : List String) :
    hbGo 0 (c :: rest) =
      (if val c = 2 ∨ val c = 7 ∨ val c = 8 ∨ val c = 27 ∨ val c = 28 then true
      else if (40 ≤ val c ∧ val c ≤ 49) ∨ (100 ≤ val c ∧ val c ≤ 107) then true
      else if val c = 38 ∧ rest.head? = some "5" ∧ 2 ≤ rest.length then hbGo 2 rest
      else if val c = 38 ∧ rest.head? = some "2" ∧ 4 ≤ rest.length then hbGo 4 rest
      else hbGo 0 rest) := rfl

theorem hbu_zero (t : List String) : hbGo 0 ("0" :: t) = hbGo 0 t := rfl

theorem hbu_39 (t : List String) : hbGo 0 ("39" :: t) = hbGo 0 t := rfl

theorem hbu_38_5 (x : String) (t : List String) :
    hbGo 0 ("38" :: "5" :: x :: t) = hbGo 0 t := by
  have hp : val "38" = 38 ∧ ("5" :: x :: t).head? = some "5" ∧
      2 ≤ ("5" :: x :: t).length :=
    ⟨by decide, rfl, by simp only [List.length_cons]; omega⟩
  rw [hb_unfold, if_neg (by decide), if_neg (by decide), if_pos hp]
  rfl

theorem hbu_38_2 (r g b : String) (t : List String) :
    hbGo 0 ("38" :: "2" :: r :: g :: b :: t) = hbGo 0 t := by
  have hq : ¬ (val "38" = 38 ∧ ("2" :: r :: g :: b :: t).head? = some "5" ∧
      2 ≤ ("2" :: r :: g :: b :: t).length) := by
    rintro ⟨-, h, -⟩; simp at h
  have hp : val "38" = 38 ∧ ("2" :: r :: g :: b :: t).head? = some "2" ∧
      4 ≤ ("2" :: r :: g :: b :: t).length :=
    ⟨by decide, rfl, by simp only [List.length_cons]; omega⟩
  rw [hb_unfold, if_neg (by decide), if_neg (by decide), if_neg hq, if_pos hp]
  rfl

theorem hb_keep_single (c : String) (t : List String)
    (h1 : ¬ (val c = 2 ∨ val c = 7 ∨ val c = 8 ∨ val c = 27 ∨ val c = 28))
    (h2 : ¬ ((40 ≤ val c ∧ val c ≤ 49) ∨ (100 ≤ val c ∧ val c ≤ 107)))
    (h3 : val c ≠ 38) :
    hbGo 0 (c :: t) = hbGo 0 t := by
  rw [hb_unfold, if_neg h1, if_neg h2, if_neg (by rintro ⟨h, -, -⟩; exact h3 h),
    if_neg (by rintro ⟨h, -, -⟩; exact h3 h)]

theorem hb_fc_aux :
    ∀ (n : Nat) (l : List String), l.length ≤ n →
      hbGo 0 (fcGo FCState.normal l) = false := by
  intro n
  induction n with
  | zero =>
    intro l hl
    have h : l = [] := List.length_eq_zero.mp (Nat.le_zero.mp hl)
    subst h; rfl
  | succ n ih =>
    intro l hl
    match l with
    | [] => rfl
    | c :: rest =>
      have hr : rest.length ≤ n := by
        have := hl; simp [List.length_cons] at this; omega
      by_cases hc0 : val c = 0
      · rw [fc_unfold, if_pos hc0, hbu_zero]; exact ih rest hr
      by_cases hc1 : val c = 1 ∨ val c = 3 ∨ val c = 4 ∨ val c = 9
      · rw [fc_unfold, if_neg hc0, if_pos hc1,
          hb_keep_single c _ (by rcases hc1 with h|h|h|h <;> omega)
            (by rcases hc1 with h|h|h|h <;> omega)
            (by rcases hc1 with h|h|h|h <;> omega)]
        exact ih rest hr
      by_cases hc2 : val c = 22 ∨ val c = 23 ∨ val c = 24 ∨ val c = 29
      · rw [fc_unfold, if_neg hc0, if_neg hc1, if_pos hc2,
          hb_keep_single c _ (by rcases hc2 with h|h|h|h <;> omega)
            (by rcases hc2 with h|h|h|h <;> omega)
            (by rcases hc2 with h|h|h|h <;> omega)]
        exact ih rest hr
      by_cases hc3 : 30 ≤ val c ∧ val c ≤ 37
      · rw [fc_unfold, if_neg hc0, if_neg hc1, if_neg hc2, if_pos hc3,
          hb_keep_single c _ (by omega) (by omega) (by omega)]
        exact ih rest hr
      by_cases hc4 : val c = 39
      · rw [fc_unfold, if_neg hc0, if_neg hc1, if_neg hc2, if_neg hc3, if_pos hc4,
          hbu_39]
        exact ih rest hr
      by_cases hc5 : 90 ≤ val c ∧ val c ≤ 97
      · rw [fc_unfold, if_neg hc0, if_neg hc1, if_neg hc2, if_neg hc3, if_neg hc4,
          if_pos hc5, hb_keep_single c _ (by omega) (by omega) (by omega)]
        exact ih rest hr
      by_cases hc6 : val c = 38 ∧ rest.head? = some "5" ∧ 2 ≤ rest.length
      · obtain ⟨h38, hhead, hlen⟩ := hc6
        match rest, hhead, hlen with
        | a :: x :: rest2, hhead, hlen =>
          have ha : a = "5" := by simpa using hhead
          subst ha
          have h2 : rest2.length ≤ n := by
            simp [List.length_cons] at hr; omega
          rw [fc_unfold, if_neg hc0, if_neg hc1, if_neg hc2, if_neg hc3, if_neg hc4,
            if_neg hc5,
            if_pos (show val c = 38 ∧ ("5" :: x :: rest2).head? = some "5" ∧
              2 ≤ ("5" :: x :: rest2).length from
              ⟨h38, rfl, by simp only [List.length_cons]; omega⟩),
            fc_copy_two, hbu_38_5]
          exact ih rest2 h2
      by_cases hc7 : val c = 38 ∧ rest.head? = some "2" ∧ 4 ≤ rest.length
      · obtain ⟨h38, hhead, hlen⟩ := hc7
        match rest, hhead, hlen with
        | a :: x :: y :: z :: rest4, hhead, hlen =>
          have ha : a = "2" := by simpa using hhead
          subst ha
          have h4 : rest4.length ≤ n := by
            simp [List.length_cons] at hr; omega
          rw [fc_unfold, if_neg hc0, if_neg hc1, if_neg hc2, if_neg hc3, if_neg hc4,
            if_neg hc5, if_neg hc6,
            if_pos (show val c = 38 ∧ ("2" :: x :: y :: z :: rest4).head? = some "2" ∧
              4 ≤ ("2" :: x :: y :: z :: rest4).length from
              ⟨h38, rfl, by simp only [List.length_cons]; omega⟩),
            fc_copy_four, hbu_38_2]
          exact ih rest4 h4
      by_cases hc8 : (40 ≤ val c ∧ val c ≤ 49) ∨ (100 ≤ val c ∧ val c ≤ 107)
      · rw [fc_unfold, if_neg hc0, if_neg hc1, if_neg hc2, if_neg hc3, if_neg hc4,
          if_neg hc5, if_neg hc6, if_neg hc7, if_pos hc8]
        exact ih rest hr
      by_cases hc9 : val c = 48 ∧ rest.head? = some "5"
      · rw [fc_unfold, if_neg hc0, if_neg hc1, if_neg hc2, if_neg hc3, if_neg hc4,
          if_neg hc5, if_neg hc6, if_neg hc7, if_neg hc8, if_pos hc9,
          fc_skip_drop rest 2 (by omega)]
        exact ih (List.drop 2 rest) (by rw [List.length_drop]; omega)
      by_cases hc10 : val c = 48 ∧ rest.head? = some "2"
      · rw [fc_unfold, if_neg hc0, if_neg hc1, if_neg hc2, if_neg hc3, if_neg hc4,
          if_neg hc5, if_neg hc6, if_neg hc7, if_neg hc8, if_neg hc9, if_pos hc10,
          fc_skip_drop rest 4 (by omega)]
        exact ih (List.drop 4 rest) (by rw [List.length_drop]; omega)
      by_cases hc11 : val c = 2 ∨ val c = 7 ∨ val c = 8 ∨ val c = 27 ∨ val c = 28
      · rw [fc_unfold, if_neg hc0, if_neg hc1, if_neg hc2, if_neg hc3, if_neg hc4,
          if_neg hc5, if_neg hc6, if_neg hc7, if_neg hc8, if_neg hc9, if_neg hc10,
          if_pos hc11]
        exact ih rest hr
      · rw [fc_unfold, if_neg hc0, if_neg hc1, if_neg hc2, if_neg hc3, if_neg hc4,
          if_neg hc5, if_neg hc6, if_neg hc7, if_neg hc8, if_neg hc9, if_neg hc10,
          if_neg hc11]
        exact ih rest hr

theorem hasBad_filterCodes (l : List String) : hasBad (filterCodes l) = false :=
  hb_fc_aux l.length l (Nat.le_refl _)

/-! ### The filter preserves well-formed parameters -/

theorem fc_good_aux :
    ∀ (n : Nat) (l : List String), l.length ≤ n →
      (∀ s ∈ l, goodCode s) → ∀ s ∈ fcGo FCState.normal l, goodCode s := by
  intro n
  induction n with
  | zero =>
    intro l hl _
    have h : l = [] := List.length_eq_zero.mp (Nat.le_zero.mp hl)
    subst h; intro s hs; simp [fcGo] at hs
  | succ n ih =>
    intro l hl hg
    match l with
    | [] => intro s hs; simp [fcGo] at hs
    | c :: rest =>
      have hr : rest.length ≤ n := by
        have := hl; simp [List.length_cons] at this; omega
      have hgc : goodCode c := hg c (List.mem_cons_self c rest)
      have hgr : ∀ s ∈ rest, goodCode s := fun s hs => hg s (List.mem_cons_of_mem c hs)
      by_cases hc0 : val c = 0
      · rw [fc_unfold, if_pos hc0]
        intro s hs
        rcases List.mem_cons.mp hs with h | h
        · subst h; exact ⟨by decide, by decide⟩
        · exact ih rest hr hgr s h
      by_cases hc1 : val c = 1 ∨ val c = 3 ∨ val c = 4 ∨ val c = 9
      · rw [fc_unfold, if_neg hc0, if_pos hc1]
        intro s hs
        rcases List.mem_cons.mp hs with h | h
        · subst h; exact hgc
        · exact ih rest hr hgr s h
      by_cases hc2 : val c = 22 ∨ val c = 23 ∨ val c = 24 ∨ val c = 29
      · rw [fc_unfold, if_neg hc0, if_neg hc1, if_pos hc2]
        intro s hs
        rcases List.mem_cons.mp hs with h | h
        · subst h; exact hgc
        · exact ih rest hr hgr s h
      by_cases hc3 : 30 ≤ val c ∧ val c ≤ 37
      · rw [fc_unfold, if_neg hc0, if_neg hc1, if_neg hc2, if_pos hc3]
        intro s hs
        rcases List.mem_cons.mp hs with h | h
        · subst h; exact hgc
        · exact ih rest hr hgr s h
      by_cases hc4 : val c = 39
      · rw [fc_unfold, if_neg hc0, if_neg hc1, if_neg hc2, if_neg hc3, if_pos hc4]
        intro s hs
        rcases List.mem_cons.mp hs with h | h
        · subst h; exact ⟨by decide, by decide⟩
        · exact ih rest hr hgr s h
      by_cases hc5 : 90 ≤ val c ∧ val c ≤ 97
      · rw [fc_unfold, if_neg hc0, if_neg hc1, if_neg hc2, if_neg hc3, if_neg hc4,
          if_pos hc5]
        intro s hs
        rcases List.mem_cons.mp hs with h | h
        · subst h; exact hgc
        · exact ih rest hr hgr s h
      by_cases hc6 : val c = 38 ∧ rest.head? = some "5" ∧ 2 ≤ rest.length
      · obtain ⟨h38, hhead, hlen⟩ := hc6
        cases rest with
        | nil => simp at hhead
        | cons a rest' =>
          cases rest' with
          | nil => simp at hlen
          | cons x rest2 =>
            have ha : a = "5" := by simpa using hhead
            subst ha
            have h2 : rest2.length ≤ n := by
              simp [List.length_cons] at hr; omega
            have hg2 : ∀ s ∈ rest2, goodCode s := fun s hs =>
              hgr s (List.mem_cons_of_mem _ (List.mem_cons_of_mem _ hs))
            rw [fc_unfold, if_neg hc0, if_neg hc1, if_neg hc2, if_neg hc3, if_neg hc4,
              if_neg hc5,
              if_pos (show val c = 38 ∧ ("5" :: x :: rest2).head? = some "5" ∧
                2 ≤ ("5" :: x :: rest2).length from
                ⟨h38, rfl, by simp only [List.length_cons]; omega⟩),
              fc_copy_two]
            intro s hs
            rcases List.mem_cons.mp hs with h | hs
            · subst h; exact ⟨by decide, by decide⟩
            rcases List.mem_cons.mp hs with h | hs
            · subst h; exact ⟨by decide, by decide⟩
            rcases List.mem_cons.mp hs with h | hs
            · rw [h]
              exact hgr x (List.mem_cons_of_mem _ (List.mem_cons_self x rest2))
            · exact ih rest2 h2 hg2 s hs
      by_cases hc7 : val c = 38 ∧ rest.head? = some "2" ∧ 4 ≤ rest.length
      · obtain ⟨h38, hhead, hlen⟩ := hc7
        cases rest with
        | nil => simp at hhead
        | cons a rest' =>
          have ha : a = "2" := by simpa using hhead
          subst ha
          cases rest' with
          | nil => simp at hlen
          | cons x rest'' =>
            cases rest'' with
            | nil => simp at hlen
            | cons y rest''' =>
              cases rest''' with
              | nil => simp at hlen
              | cons z rest4 =>
                have h4 : rest4.length ≤ n := by
                  simp [List.length_cons] at hr; omega
                have hg4 : ∀ s ∈ rest4, goodCode s := fun s hs =>
                  hgr s (List.mem_cons_of_mem _ (List.mem_cons_of_mem _
                    (List.mem_cons_of_mem _ (List.mem_cons_of_mem _ hs))))
                rw [fc_unfold, if_neg hc0, if_neg hc1, if_neg hc2, if_neg hc3,
                  if_neg hc4, if_neg hc5, if_neg hc6,
                  if_pos (show val c = 38 ∧
                    ("2" :: x :: y :: z :: rest4).head? = some "2" ∧
                    4 ≤ ("2" :: x :: y :: z :: rest4).length from
                    ⟨h38, rfl, by simp only [List.length_cons]; omega⟩),
                  fc_copy_four]
                intro s hs
                rcases List.mem_cons.mp hs with h | hs
                · subst h; exact ⟨by decide, by decide⟩
                rcases List.mem_cons.mp hs with h | hs
                · subst h; exact ⟨by decide, by decide⟩
                rcases List.mem_cons.mp hs with h | hs
                · rw [h]
                  exact hgr x (List.mem_cons_of_mem _ (List.mem_cons_self x _))
                rcases List.mem_cons.mp hs with h | hs
                · rw [h]
                  exact hgr y (List.mem_cons_of_mem _ (List.mem_cons_of_mem _
                    (List.mem_cons_self y _)))
                rcases List.mem_cons.mp hs with h | hs
                · rw [h]
                  exact hgr z (List.mem_cons_of_mem _ (List.mem_cons_of_mem _
                    (List.mem_cons_of_mem _ (List.mem_cons_self z _))))
                · exact ih rest4 h4 hg4 s hs
      by_cases hc8 : (40 ≤ val c ∧ val c ≤ 49) ∨ (100 ≤ val c ∧ val c ≤ 107)
      · rw [fc_unfold, if_neg hc0, if_neg hc1, if_neg hc2, if_neg hc3, if_neg hc4,
          if_neg hc5, if_neg hc6, if_neg hc7, if_pos hc8]
        exact ih rest hr hgr
      by_cases hc9 : val c = 48 ∧ rest.head? = some "5"
      · rw [fc_unfold, if_neg hc0, if_neg hc1, if_neg hc2, if_neg hc3, if_neg hc4,
          if_neg hc5, if_neg hc6, if_neg hc7, if_neg hc8, if_pos hc9,
          fc_skip_drop rest 2 (by omega)]
        exact ih (List.drop 2 rest) (by rw [List.length_drop]; omega)
          (fun s hs => hgr s (List.mem_of_mem_drop hs))
      by_cases hc10 : val c = 48 ∧ rest.head? = some "2"
      · rw [fc_unfold, if_neg hc0, if_neg hc1, if_neg hc2, if_neg hc3, if_neg hc4,
          if_neg hc5, if_neg hc6, if_neg hc7, if_neg hc8, if_neg hc9, if_pos hc10,
          fc_skip_drop rest 4 (by omega)]
        exact ih (List.drop 4 rest) (by rw [List.length_drop]; omega)
          (fun s hs => hgr s (List.mem_of_mem_drop hs))
      by_cases hc11 : val c = 2 ∨ val c = 7 ∨ val c = 8 ∨ val c = 27 ∨ val c = 28
      · rw [fc_unfold, if_neg hc0, if_neg hc1, if_neg hc2, if_neg hc3, if_neg hc4,
          if_neg hc5, if_neg hc6, if_neg hc7, if_neg hc8, if_neg hc9, if_neg hc10,
          if_pos hc11]
        exact ih rest hr hgr
      · rw [fc_unfold, if_neg hc0, if_neg hc1, if_neg hc2, if_neg hc3, if_neg hc4,
          if_neg hc5, if_neg hc6, if_neg hc7, if_neg hc8, if_neg hc9, if_neg hc10,
          if_neg hc11]
        exact ih rest hr hgr

theorem filterCodes_good (l : List String) (h : ∀ s ∈ l, goodCode s) :
    ∀ s ∈ filterCodes l, goodCode s :=
  fc_good_aux l.length l (Nat.le_refl _) h

/-! ### Splitting and joining parameter lists -/

theorem mk_data (s : String) : String.mk s.data = s := rfl

theorem param_ne_m (c : Char) (h : isParamChar c = true) : c ≠ 'm' := by
  intro he; subst he; exact absurd h (by decide)

theorem digit_ne_semi (c : Char) (h : c.isDigit = true) : c ≠ ';' := by
  intro he; subst he; exact absurd h (by decide)

theorem core_run :
    ∀ (d : List Char), (∀ c ∈ d, c ≠ ';') → ∀ (l : List Char),
      splitSemisCore (d ++ l) =
        (d ++ (splitSemisCore l).1, (splitSemisCore l).2) := by
  intro d
  induction d with
  | nil => intro _ l; simp
  | cons c d' ih =>
    intro h l
    have hcne : ¬ c = ';' := h c (List.mem_cons_self c d')
    have hrest : ∀ x ∈ d', x ≠ ';' := fun x hx => h x (List.mem_cons_of_mem c hx)
    simp only [List.cons_append, splitSemisCore, if_neg hcne]
    rw [List.append_eq, ih hrest l]

theorem core_semi (l : List Char) :
    splitSemisCore (';' :: l) = ([], splitSemis l) := rfl

theorem split_join :
    ∀ (a : List String), (∀ s ∈ a, goodCode s) → splitSemis (joinSemis a) = a := by
  intro a
  induction a with
  | nil => intro _; rfl
  | cons s rest ih =>
    intro hg
    have hgs : goodCode s := hg s (List.mem_cons_self s rest)
    have hgr : ∀ x ∈ rest, goodCode x := fun x hx => hg x (List.mem_cons_of_mem s hx)
    have hds : ∀ c ∈ s.data, c ≠ ';' := fun c hc => digit_ne_semi c (hgs.2 c hc)
    cases rest with
    | nil =>
      show splitSemis s.data = [s]
      have hc : splitSemisCore s.data = (s.data, []) := by
        have h := core_run s.data hds []
        simpa [splitSemisCore] using h
      simp only [splitSemis, hc]
      rw [if_neg hgs.1, mk_data]
    | cons s' ss =>
      show splitSemis (s.data ++ ';' :: joinSemis (s' :: ss)) = s :: s' :: ss
      have hc : splitSemisCore (s.data ++ ';' :: joinSemis (s' :: ss)) =
          (s.data, splitSemis (joinSemis (s' :: ss))) := by
        rw [core_run s.data hds, core_semi]
        simp
      rw [ih hgr] at hc
      simp only [splitSemis, hc]
      rw [if_neg hgs.1, mk_data]

theorem join_param :
    ∀ (a : List String), (∀ s ∈ a, goodCode s) →
      ∀ c ∈ joinSemis a, isParamChar c = true := by
  intro a
  induction a with
  | nil => intro _ c hc; simp [joinSemis] at hc
  | cons s rest ih =>
    intro hg
    have hgs : goodCode s := hg s (List.mem_cons_self s rest)
    have hgr : ∀ x ∈ rest, goodCode x := fun x hx => hg x (List.mem_cons_of_mem s hx)
    cases rest with
    | nil =>
      intro c hc
      have : c.isDigit = true := hgs.2 c hc
      simp [isParamChar, this]
    | cons s' ss =>
      intro c hc
      rcases List.mem_append.mp hc with h | h
      · have : c.isDigit = true := hgs.2 c h
        simp [isParamChar, this]
      · rcases List.mem_cons.mp h with h | h
        · subst h; decide
        · exact ih hgr c h

/-! ### Well-formedness of the split parameters -/

theorem core_good :
    ∀ (l : List Char), (∀ c ∈ l, isParamChar c = true) →
      (∀ c ∈ (splitSemisCore l).1, c.isDigit = true) ∧
      (∀ s ∈ (splitSemisCore l).2, goodCode s) := by
  intro l
  induction l with
  | nil => intro _; exact ⟨by simp [splitSemisCore], by simp [splitSemisCore]⟩
  | cons c rest ih =>
    intro h
    have hc := h c (List.mem_cons_self c rest)
    have hr : ∀ x ∈ rest, isParamChar x = true := fun x hx =>
      h x (List.mem_cons_of_mem c hx)
    obtain ⟨ih1, ih2⟩ := ih hr
    by_cases hsemi : c = ';'
    · subst hsemi
      constructor
      · simp [splitSemisCore]
      · simp only [splitSemisCore, if_pos rfl]
        by_cases hp : (splitSemisCore rest).1 = []
        · simpa [hp] using ih2
        · rw [if_neg hp]
          intro s hs
          rcases List.mem_cons.mp hs with h' | h'
          · rw [h']; exact ⟨hp, ih1⟩
          · exact ih2 s h'
    · have hdig : c.isDigit = true := by
        simp [isParamChar] at hc
        rcases hc with h' | h'
        · exact h'
        · exact absurd h' hsemi
      constructor
      · simp only [splitSemisCore, if_neg hsemi]
        intro x hx
        rcases List.mem_cons.mp hx with h' | h'
        · rw [h']; exact hdig
        · exact ih1 x h'
      · simp only [splitSemisCore, if_neg hsemi]
        exact ih2

theorem splitSemis_good (l : List Char) (h : ∀ c ∈ l, isParamChar c = true) :
    ∀ s ∈ splitSemis l, goodCode s := by
  obtain ⟨h1, h2⟩ := core_good l h
  simp only [splitSemis]
  by_cases hp : (splitSemisCore l).1 = []
  · rw [if_pos hp]; exact h2
  · rw [if_neg hp]
    intro s hs
    rcases List.mem_cons.mp hs with h' | h'
    · rw [h']; exact ⟨hp, h1⟩
    · exact h2 s h'

/-! ### The scanner on a single well-formed token -/

theorem checkPM_run :
    ∀ (d : List Char), (∀ c ∈ d, isParamChar c = true) →
      checkPM (d ++ ['m']) = true := by
  intro d
  induction d with
  | nil => intro _; rfl
  | cons c d' ih =>
    intro h
    have hc := h c (List.mem_cons_self c d')
    have hr : ∀ x ∈ d', isParamChar x = true := fun x hx =>
      h x (List.mem_cons_of_mem c hx)
    have hne : ¬ (d' ++ ['m'] = ([] : List Char)) := by simp
    show checkPM (c :: (d' ++ ['m'])) = true
    simp only [checkPM, if_neg hne]
    rw [hc, ih hr]
    rfl

theorem gs_tok :
    ∀ (params : List Char), (∀ c ∈ params, isParamChar c = true) →
      ∀ (acc rest : List Char),
        gsGo (ScanMode.tok acc) (params ++ 'm' :: rest) =
          stripTokenL (acc.reverse ++ params) ++ gsGo ScanMode.plain rest := by
  intro params
  induction params with
  | nil =>
    intro _ acc rest
    simp only [List.nil_append, List.append_nil]
    rfl
  | cons c ps ih =>
    intro h acc rest
    have hc := h c (List.mem_cons_self c ps)
    have hr : ∀ x ∈ ps, isParamChar x = true := fun x hx =>
      h x (List.mem_cons_of_mem c hx)
    have hm : ¬ c = 'm' := param_ne_m c hc
    show gsGo (ScanMode.tok acc) (c :: (ps ++ 'm' :: rest)) = _
    simp only [gsGo, if_neg hm, if_pos hc]
    rw [ih hr (c :: acc) rest]
    simp [List.append_assoc]

theorem stripColorsL_token (params : List Char)
    (h : ∀ c ∈ params, isParamChar c = true) :
    stripColorsL ('\x1b' :: '[' :: (params ++ ['m'])) = stripTokenL params := by
  show gsGo (ScanMode.tok []) (params ++ 'm' :: []) = stripTokenL params
  rw [gs_tok params h [] []]
  simp [gsGo]

theorem stripColors_mkToken (codes : List String) (hg : ∀ s ∈ codes, goodCode s) :
    stripColors (mkToken codes) = String.mk (stripTokenL (joinSemis codes)) := by
  show String.mk (stripColorsL ('\x1b' :: '[' :: (joinSemis codes ++ ['m']))) = _
  rw [stripColorsL_token (joinSemis codes) (join_param codes hg)]

theorem stripTokenL_join (codes : List String) (hne : codes ≠ [])
    (hg : ∀ s ∈ codes, goodCode s) :
    stripTokenL (joinSemis codes) =
      (if filterCodes codes = [] then []
      else '\x1b' :: '[' :: (joinSemis (filterCodes codes) ++ ['m'])) := by
  simp only [stripTokenL, split_join codes hg, if_neg hne]

/-! ### Claims about the SGR sanitizer -/

/-- C1: evaluation at the failing input.  The claim says the sanitizer
drops the full `48;5;N` and `48;2;R;G;B` groups.  In the code the `40–49`
range test captures `48` before the group branches (which the comment
`Skip ALL backgrounds: 40-47, 49, 100-107` deliberately excludes `48`
from), so only the lone `48` is dropped and the remaining group parameters
are rescanned as codes: `CSI 48;5;31 m` keeps the color index `31` as a
foreground color, and `CSI 48;2;1;2;3 m` keeps `1` and `3`.  The claim's
own example maps as stated because `236` is not an allowed code. -/
theorem c1_background_group_leak :
    stripColors "\x1b[48;5;31m" = "\x1b[31m" ∧
    stripColors "\x1b[48;2;1;2;3m" = "\x1b[1;3m" ∧
    stripColors "\x1b[1;38;5;196;48;5;236m" = "\x1b[1;38;5;196m" :=
  ⟨by decide, by decide, by decide⟩

/-- C2: the sanitizer's output never contains a background, dim, inverse
or hidden code (read with the source's parameter grouping), the output of
any token is the empty string or one syntactically valid `CSI <params> m`
token, `CSI 7 m` is fully elided, and `CSI 0 m` is preserved. -/
theorem c2_sanitizer_guarantees :
    (∀ l : List String, hasBad (filterCodes l) = false) ∧
    (∀ run : List Char, (∀ c ∈ run, isParamChar c = true) →
      isEmptyOrCSIm (stripTokenL run) = true) ∧
    stripColors "\x1b[7m" = "" ∧ stripColors "\x1b[0m" = "\x1b[0m" := by
  refine ⟨hasBad_filterCodes, ?_, by decide, by decide⟩
  intro run hrun
  by_cases h0 : splitSemis run = []
  · simp only [stripTokenL, h0]
    decide
  · have hgood := splitSemis_good run hrun
    by_cases ha : filterCodes (splitSemis run) = []
    · simp only [stripTokenL, if_neg h0, ha]
      decide
    · simp only [stripTokenL, if_neg h0, if_neg ha]
      have hgf := filterCodes_good _ hgood
      have hjp := join_param _ hgf
      simp [isEmptyOrCSIm, isCSIm, checkPM_run _ hjp]

/-- C2 witness: the guarantees evaluated at the concrete parameter run
`48;5;1`. -/
theorem c2_witness :
    (∀ c ∈ ['4', '8', ';', '5', ';', '1'], isParamChar c = true) ∧
    isEmptyOrCSIm (stripTokenL ['4', '8', ';', '5', ';', '1']) = true :=
  ⟨by decide, c2_sanitizer_guarantees.2.1 ['4', '8', ';', '5', ';', '1'] (by decide)⟩

/-- C3 counterexample: the token `CSI 38;5 m`, whose `38;5` group is
truncated, is not passed through unmodified — the sanitizer maps it to the
empty string. -/
theorem c3_truncated_not_passed_through :
    stripColors "\x1b[38;5m" ≠ "\x1b[38;5m" := by decide

/-- C3 amended: a token with a malformed/truncated parameter group is not
passed through; the group's lead code `38` falls through every keep branch
and is dropped as unknown, and the remaining parameters are rescanned
individually — so `CSI 38;5 m` and `CSI 38;2;255;10 m` map to the empty
string. -/
theorem c3_truncated_group_rescanned :
    stripColors "\x1b[38;5m" = "" ∧
    stripColors "\x1b[38;2;255;10m" = "" ∧
    (∀ rest : List String, rest.length < 2 →
      filterCodes ("38" :: rest) = filterCodes rest) := by
  refine ⟨by decide, by decide, ?_⟩
  intro rest hlen
  show fcGo FCState.normal ("38" :: rest) = fcGo FCState.normal rest
  rw [fc_unfold, if_neg (by decide), if_neg (by decide), if_neg (by decide),
    if_neg (by decide), if_neg (by decide), if_neg (by decide),
    if_neg (by rintro ⟨-, -, h⟩; omega),
    if_neg (by rintro ⟨-, -, h⟩; omega),
    if_neg (by decide),
    if_neg (by rintro ⟨h, -⟩; exact absurd h (by decide)),
    if_neg (by rintro ⟨h, -⟩; exact absurd h (by decide)),
    if_neg (by decide)]

/-- C3 witness: the amended statement applied at the truncated group
`38;5`. -/
theorem c3_witness :
    List.length ["5"] < 2 ∧ filterCodes ["38", "5"] = filterCodes ["5"] :=
  ⟨by decide, c3_truncated_group_rescanned.2.2 ["5"] (by decide)⟩

/-- C8: on a token built only from allowed codes the sanitizer is
idempotent — sanitizing the sanitized token changes nothing. -/
theorem c8_sanitizer_idempotent (codes : List String)
    (hallow : allowedCodes codes = true) (hg : ∀ s ∈ codes, goodCode s) :
    stripColors (stripColors (mkToken codes)) = stripColors (mkToken codes) := by
  rw [stripColors_mkToken codes hg]
  by_cases hnil : codes = []
  · subst hnil; decide
  · rw [stripTokenL_join codes hnil hg]
    by_cases ha : filterCodes codes = []
    · rw [if_pos ha]; decide
    · rw [if_neg ha]
      have hgf : ∀ s ∈ filterCodes codes, goodCode s := filterCodes_good codes hg
      have h1 : String.mk ('\x1b' :: '[' :: (joinSemis (filterCodes codes) ++ ['m'])) =
          mkToken (filterCodes codes) := rfl
      rw [h1, stripColors_mkToken _ hgf, stripTokenL_join _ ha hgf, filterCodes_idem,
        if_neg ha]
      rfl

/-- C8 witness: idempotence at the allowed token `CSI 1;31 m`. -/
theorem c8_witness :
    allowedCodes ["1", "31"] = true ∧
    stripColors (stripColors (mkToken ["1", "31"])) = stripColors (mkToken ["1", "31"]) :=
  ⟨by decide, c8_sanitizer_idempotent ["1", "31"] (by decide) (by decide)⟩

/-! ### Literal replacement lemmas -/

theorem pre_cons (a b : Char) (as bs : List Char) :
    (a :: as).isPrefixOf (b :: bs) = (a == b && as.isPrefixOf bs) := rfl

theorem pre_self (l t : List Char) : l.isPrefixOf (l ++ t) = true := by
  induction l with
  | nil => simp
  | cons a as ih => simp [pre_cons, ih]

theorem repl_nil (p : Char) (ps repl : List Char) :
    replaceAllL p ps repl [] = [] := by
  simp only [replaceAllL]

theorem repl_cons (p : Char) (ps repl : List Char) (c : Char) (l : List Char) :
    replaceAllL p ps repl (c :: l) =
      if (p :: ps).isPrefixOf (c :: l) = true then
        repl ++ replaceAllL p ps repl (List.drop ps.length l)
      else c :: replaceAllL p ps repl l := by
  simp only [replaceAllL]

theorem repl_cons_ne (p : Char) (ps repl : List Char) (c : Char) (l : List Char)
    (h : c ≠ p) : replaceAllL p ps repl (c :: l) = c :: replaceAllL p ps repl l := by
  rw [repl_cons, if_neg]
  intro hcontra
  rw [pre_cons] at hcontra
  have hpc : (p == c) = false := by
    rcases Bool.eq_false_or_eq_true (p == c) with hb | hb
    · exact absurd (beq_iff_eq.mp hb).symm h
    · exact hb
  rw [hpc, Bool.false_and] at hcontra
  exact absurd hcontra (by decide)

theorem repl_not_mem (p : Char) (ps repl : List Char) (l : List Char) (h : p ∉ l) :
    replaceAllL p ps repl l = l := by
  induction l with
  | nil => exact repl_nil p ps repl
  | cons c t ih =>
    have hcp : c ≠ p := fun he => h (by rw [he]; exact List.mem_cons_self p t)
    have ht : p ∉ t := fun hm => h (List.mem_cons_of_mem c hm)
    rw [repl_cons_ne p ps repl c t hcp, ih ht]

theorem repl_append_free (p : Char) (ps repl a t : List Char) (h : p ∉ a) :
    replaceAllL p ps repl (a ++ t) = a ++ replaceAllL p ps repl t := by
  induction a with
  | nil => simp
  | cons c a' ih =>
    have hcp : c ≠ p := fun he => h (by rw [he]; exact List.mem_cons_self p a')
    have ha' : p ∉ a' := fun hm => h (List.mem_cons_of_mem c hm)
    rw [List.cons_append, repl_cons_ne p ps repl c _ hcp, ih ha']
    rfl

theorem repl_head_match (p : Char) (ps repl t : List Char) :
    replaceAllL p ps repl ((p :: ps) ++ t) = repl ++ replaceAllL p ps repl t := by
  rw [List.cons_append, repl_cons, if_pos]
  · rw [List.drop_left]
  · rw [← List.cons_append]
    exact pre_self (p :: ps) t

/-! ### Region tokens and their rewriting -/

theorem rtok24 : regionTok 24 = ['\x1b', '[', '1', ';', '2', '4', 'r'] := by decide

theorem rtok23 : regionTok 23 = ['\x1b', '[', '1', ';', '2', '3', 'r'] := by decide

theorem ic_nil (sep : List Char) :
    List.intercalate sep ([] : List (List Char)) = [] := by
  simp [List.intercalate]

theorem ic_single (sep x : List Char) : List.intercalate sep [x] = x := by
  simp [List.intercalate]

theorem ic_cons2 (sep x y : List Char) (zs : List (List Char)) :
    List.intercalate sep (x :: y :: zs) =
      x ++ (sep ++ List.intercalate sep (y :: zs)) := by
  simp [List.intercalate]

theorem not_mem_of_digits (d : List Char) (hd : ∀ c ∈ d, c.isDigit = true) :
    '\x1b' ∉ d := fun hm => absurd (hd _ hm) (by decide)

theorem digit_run_prefix_false :
    ∀ (dm dn t : List Char), dm ≠ dn →
      (∀ c ∈ dm, c.isDigit = true) → (∀ c ∈ dn, c.isDigit = true) →
      (dm ++ ['r']).isPrefixOf (dn ++ 'r' :: t) = false := by
  intro dm
  induction dm with
  | nil =>
    intro dn t hne hdm hdn
    cases dn with
    | nil => exact absurd rfl hne
    | cons b dn' =>
      show (['r'] : List Char).isPrefixOf ((b :: dn') ++ 'r' :: t) = false
      rw [List.cons_append, pre_cons]
      have hb : (('r' : Char) == b) = false := by
        rcases Bool.eq_false_or_eq_true ('r' == b) with hb | hb
        · exact absurd (hdn b (List.mem_cons_self b dn') ▸
            congrArg Char.isDigit (beq_iff_eq.mp hb)) (by decide)
        · exact hb
      rw [hb, Bool.false_and]
  | cons a dm' ih =>
    intro dn t hne hdm hdn
    have hda : a.isDigit = true := hdm a (List.mem_cons_self a dm')
    have hdm' : ∀ c ∈ dm', c.isDigit = true := fun c hc =>
      hdm c (List.mem_cons_of_mem a hc)
    cases dn with
    | nil =>
      show ((a :: dm') ++ ['r']).isPrefixOf ('r' :: t) = false
      rw [List.cons_append, pre_cons]
      have ha : ((a : Char) == 'r') = false := by
        rcases Bool.eq_false_or_eq_true (a == 'r') with hb | hb
        · exact absurd (beq_iff_eq.mp hb ▸ hda) (by decide)
        · exact hb
      rw [ha, Bool.false_and]
    | cons b dn' =>
      have hdn' : ∀ c ∈ dn', c.isDigit = true := fun c hc =>
        hdn c (List.mem_cons_of_mem b hc)
      show ((a :: dm') ++ ['r']).isPrefixOf ((b :: dn') ++ 'r' :: t) = false
      rw [List.cons_append, List.cons_append, pre_cons]
      by_cases hab : a = b
      · subst hab
        have hne' : dm' ≠ dn' := fun he => hne (by rw [he])
        rw [ih dn' t hne' hdm' hdn', Bool.and_false]
      · have hb : ((a : Char) == b) = false := by
          rcases Bool.eq_false_or_eq_true (a == b) with hb | hb
          · exact absurd (beq_iff_eq.mp hb) hab
          · exact hb
        rw [hb, Bool.false_and]

theorem walk_bare_over_tok (n : Nat) (R : List Char)
    (hd : ∀ c ∈ (Nat.repr n).data, c.isDigit = true) (X : List Char) :
    replaceAllL '\x1b' ['[', 'r'] R (regionTok n ++ X) =
      regionTok n ++ replaceAllL '\x1b' ['[', 'r'] R X := by
  show replaceAllL '\x1b' ['[', 'r'] R
      ('\x1b' :: '[' :: '1' :: ';' :: (((Nat.repr n).data ++ ['r']) ++ X)) = _
  rw [repl_cons, if_neg ?hpre]
  case hpre =>
    intro hc
    rw [pre_cons, pre_cons, pre_cons,
      show (('r' : Char) == '1') = false from by decide,
      Bool.false_and, Bool.and_false, Bool.and_false] at hc
    exact absurd hc (by decide)
  rw [repl_cons_ne _ _ _ '[' _ (by decide), repl_cons_ne _ _ _ '1' _ (by decide),
    repl_cons_ne _ _ _ ';' _ (by decide), List.append_assoc,
    repl_append_free _ _ _ _ _ (not_mem_of_digits _ hd),
    List.cons_append, List.nil_append,
    repl_cons_ne _ _ _ 'r' _ (by decide)]
  simp [regionTok, List.append_assoc]

theorem walk_tok_over_tok (m n : Nat) (R : List Char)
    (hne : (Nat.repr m).data ≠ (Nat.repr n).data)
    (hdm : ∀ c ∈ (Nat.repr m).data, c.isDigit = true)
    (hdn : ∀ c ∈ (Nat.repr n).data, c.isDigit = true) (X : List Char) :
    replaceAllL '\x1b' ('[' :: '1' :: ';' :: ((Nat.repr m).data ++ ['r'])) R
      (regionTok n ++ X) =
      regionTok n ++
        replaceAllL '\x1b' ('[' :: '1' :: ';' :: ((Nat.repr m).data ++ ['r'])) R X := by
  show replaceAllL '\x1b' ('[' :: '1' :: ';' :: ((Nat.repr m).data ++ ['r'])) R
      ('\x1b' :: '[' :: '1' :: ';' :: (((Nat.repr n).data ++ ['r']) ++ X)) = _
  rw [repl_cons, if_neg ?hpre]
  case hpre =>
    intro hc
    have hrun : ((Nat.repr m).data ++ ['r']).isPrefixOf
        ((Nat.repr n).data ++ 'r' :: X) = false :=
      digit_run_prefix_false _ _ X hne hdm hdn
    rw [pre_cons, pre_cons, pre_cons, pre_cons, List.append_assoc,
      List.cons_append, List.nil_append, hrun,
      Bool.and_false, Bool.and_false, Bool.and_false, Bool.and_false] at hc
    exact absurd hc (by decide)
  rw [repl_cons_ne _ _ _ '[' _ (by decide), repl_cons_ne _ _ _ '1' _ (by decide),
    repl_cons_ne _ _ _ ';' _ (by decide), List.append_assoc,
    repl_append_free _ _ _ _ _ (not_mem_of_digits _ hdn),
    List.cons_append, List.nil_append,
    repl_cons_ne _ _ _ 'r' _ (by decide)]
  simp [regionTok, List.append_assoc]

theorem repl_bare_ic (R : List Char) :
    ∀ (segs : List (List Char)), (∀ s ∈ segs, '\x1b' ∉ s) →
      replaceAllL '\x1b' ['[', 'r'] R (List.intercalate ['\x1b', '[', 'r'] segs) =
        List.intercalate R segs := by
  intro segs
  induction segs with
  | nil => intro _; rw [ic_nil, ic_nil]; exact repl_nil _ _ _
  | cons s rest ih =>
    intro h
    have hs : '\x1b' ∉ s := h s (List.mem_cons_self s rest)
    have hr : ∀ x ∈ rest, '\x1b' ∉ x := fun x hx => h x (List.mem_cons_of_mem s hx)
    cases rest with
    | nil =>
      rw [ic_single, ic_single]
      exact repl_not_mem _ _ _ s hs
    | cons s' ss =>
      rw [ic_cons2, ic_cons2, repl_append_free _ _ _ s _ hs,
        repl_head_match '\x1b' ['[', 'r'] R, ih hr]

theorem repl_full_ic (m n : Nat)
    (hne : (Nat.repr m).data ≠ (Nat.repr n).data)
    (hdm : ∀ c ∈ (Nat.repr m).data, c.isDigit = true)
    (hdn : ∀ c ∈ (Nat.repr n).data, c.isDigit = true) :
    ∀ (segs : List (List Char)), (∀ s ∈ segs, '\x1b' ∉ s) →
      replaceAllL '\x1b' ('[' :: '1' :: ';' :: ((Nat.repr m).data ++ ['r']))
        (regionTok n) (List.intercalate (regionTok n) segs) =
        List.intercalate (regionTok n) segs := by
  intro segs
  induction segs with
  | nil => intro _; rw [ic_nil]; exact repl_nil _ _ _
  | cons s rest ih =>
    intro h
    have hs : '\x1b' ∉ s := h s (List.mem_cons_self s rest)
    have hr : ∀ x ∈ rest, '\x1b' ∉ x := fun x hx => h x (List.mem_cons_of_mem s hx)
    cases rest with
    | nil =>
      rw [ic_single]
      exact repl_not_mem _ _ _ s hs
    | cons s' ss =>
      rw [ic_cons2, repl_append_free _ _ _ s _ hs,
        walk_tok_over_tok m n (regionTok n) hne hdm hdn, ih hr]

/-! ### Claims about the compositor geometry and region rewriting -/

/-- C5: the compositor's geometry invariant
`contentRows = max(1, terminalRows - footerRows)` holds for every
geometry, and the flush rewriting replaces a full-height region-reset
token `CSI 1;rows r` in the buffered output (any escape-free context
around it) with the constrained `CSI 1;contentRows r` — the decimal-digit
facts about the two row numbers are hypotheses discharged at any concrete
geometry.  In particular, with `terminalRows = 24` and `footerRows = 1`
the content region is `23` rows and `CSI 1;24 r` becomes `CSI 1;23 r`. -/
theorem c5_geometry_region_rewrite :
    (∀ rows footerRows : Nat,
      contentRowsOf rows footerRows = max 1 (rows - footerRows)) ∧
    contentRowsOf 24 1 = 23 ∧
    (∀ (rows footerRows : Nat) (a b : List Char),
      (∀ c ∈ (Nat.repr rows).data, c.isDigit = true) →
      (∀ c ∈ (Nat.repr (contentRowsOf rows footerRows)).data, c.isDigit = true) →
      (Nat.repr rows).data ≠ (Nat.repr (contentRowsOf rows footerRows)).data →
      '\x1b' ∉ a → '\x1b' ∉ b →
      regionRewriteL rows footerRows (a ++ regionTok rows ++ b) =
        a ++ regionTok (contentRowsOf rows footerRows) ++ b) := by
  refine ⟨fun rows fr => rfl, by decide, ?_⟩
  intro rows fr a b hdr hdc hne ha hb
  show replaceAllL '\x1b' ('[' :: '1' :: ';' :: ((Nat.repr rows).data ++ ['r']))
      (regionTok (contentRowsOf rows fr))
      (replaceAllL '\x1b' ['[', 'r'] (regionTok (contentRowsOf rows fr))
        (a ++ regionTok rows ++ b)) =
    a ++ regionTok (contentRowsOf rows fr) ++ b
  rw [List.append_assoc, repl_append_free _ _ _ a _ ha,
    walk_bare_over_tok rows _ hdr, repl_not_mem _ _ _ b hb,
    repl_append_free _ _ _ a _ ha,
    show regionTok rows =
      ('\x1b' :: ('[' :: '1' :: ';' :: ((Nat.repr rows).data ++ ['r']))) from rfl,
    repl_head_match, repl_not_mem _ _ _ b hb, ← List.append_assoc]

/-- C5 witness: the rewrite evaluated at geometry 24×1 around the
full-height token with concrete context. -/
theorem c5_witness :
    (Nat.repr 24).data ≠ (Nat.repr (contentRowsOf 24 1)).data ∧
    regionRewriteL 24 1 (['a', 'b'] ++ regionTok 24 ++ ['c']) =
      ['a', 'b'] ++ regionTok (contentRowsOf 24 1) ++ ['c'] :=
  ⟨by decide,
    c5_geometry_region_rewrite.2.2 24 1 ['a', 'b'] ['c'] (by decide) (by decide)
      (by decide) (by decide) (by decide)⟩

/-- C10: with the footer enabled and the session not remote, the flush
rewriting also replaces every bare region-reset token `ESC [ r` in the
buffered output with the constrained token `ESC [ 1;contentRows r`: a
buffer interleaving escape-free segments with bare resets maps to the
same segments interleaved with `CSI 1;contentRows r`, at every geometry
whose row numbers satisfy the decimal-digit hypotheses. -/
theorem c10_bare_reset_rewritten (rows footerRows : Nat)
    (hdr : ∀ c ∈ (Nat.repr rows).data, c.isDigit = true)
    (hdc : ∀ c ∈ (Nat.repr (contentRowsOf rows footerRows)).data, c.isDigit = true)
    (hne : (Nat.repr rows).data ≠ (Nat.repr (contentRowsOf rows footerRows)).data)
    (segs : List (List Char)) (h : ∀ s ∈ segs, '\x1b' ∉ s) :
    regionRewriteL rows footerRows (List.intercalate bareResetTok segs) =
      List.intercalate (regionTok (contentRowsOf rows footerRows)) segs := by
  show replaceAllL '\x1b' ('[' :: '1' :: ';' :: ((Nat.repr rows).data ++ ['r']))
      (regionTok (contentRowsOf rows footerRows))
      (replaceAllL '\x1b' ['[', 'r'] (regionTok (contentRowsOf rows footerRows))
        (List.intercalate ['\x1b', '[', 'r'] segs)) = _
  rw [repl_bare_ic _ segs h, repl_full_ic rows (contentRowsOf rows footerRows)
    hne hdr hdc segs h]

/-- C10 witness: two bare resets between escape-free segments are both
rewritten at geometry 24×1. -/
theorem c10_witness :
    (∀ s ∈ [['h', 'i'], ['y', 'o'], ['!']], '\x1b' ∉ s) ∧
    regionRewriteL 24 1 (List.intercalate bareResetTok [['h', 'i'], ['y', 'o'], ['!']]) =
      List.intercalate (regionTok (contentRowsOf 24 1)) [['h', 'i'], ['y', 'o'], ['!']] :=
  ⟨by decide,
    c10_bare_reset_rewritten 24 1 (by decide) (by decide) (by decide)
      [['h', 'i'], ['y', 'o'], ['!']] (by decide)⟩


/-! ### The flush scheduler coalesces bursts into one flush -/

theorem chooseDelay_ge (t L : Nat) : FLUSH_DELAY_MS ≤ chooseDelay t L := by
  unfold chooseDelay
  split
  · decide
  · exact Nat.le_refl _

theorem runSched_coalesce (cfg : FlushConfig) :
    ∀ (chunks : List (Nat × List Char)) (st : SchedState) (d : Nat),
      st.exiting = false → st.deadline = some d →
      (∀ p rest', chunks = p :: rest' → p.1 < d) →
      List.Chain' (fun a b => a.1 ≤ b.1 ∧ b.1 < a.1 + FLUSH_DELAY_MS) chunks →
      ∃ d', runSched cfg chunks st =
        processAndFlush cfg
          { st with
            buffer := st.buffer ++ (chunks.map Prod.snd).flatten
            deadline := some d' } := by
  intro chunks
  induction chunks with
  | nil =>
    intro st d hex hdl _ _
    obtain ⟨bf, dl, lt, sc, ex, fl⟩ := st
    dsimp only at hex hdl
    subst hex; subst hdl
    refine ⟨d, ?_⟩
    show processAndFlush cfg ⟨bf, some d, lt, sc, false, fl⟩ = _
    simp
  | cons hd rest ih =>
    obtain ⟨t, c⟩ := hd
    intro st d hex hdl hhd hch
    obtain ⟨bf, dl, lt, sc, ex, fl⟩ := st
    dsimp only at hex hdl
    subst hex; subst hdl
    have ht : t < d := hhd (t, c) rest rfl
    simp only [runSched]
    rw [if_neg (show ¬ d ≤ t by omega)]
    have hge := chooseDelay_ge t lt
    have hst' : onData t c ⟨bf, some d, lt, sc, false, fl⟩ =
        ⟨bf ++ c, some (t + chooseDelay t lt), lt, sc, false, fl⟩ := by
      simp [onData]
    rw [hst']
    have hhd' : ∀ p rest', rest = p :: rest' → p.1 < t + chooseDelay t lt := by
      intro p rest' heq
      subst heq
      rcases List.chain'_cons.mp hch with ⟨⟨hle, hlt⟩, -⟩
      have hlt' : p.1 < t + FLUSH_DELAY_MS := by simpa using hlt
      omega
    obtain ⟨d', heq⟩ := ih ⟨bf ++ c, some (t + chooseDelay t lt), lt, sc, false, fl⟩
      (t + chooseDelay t lt) rfl rfl hhd' hch.tail
    refine ⟨d', ?_⟩
    rw [heq]
    simp [List.append_assoc]

/-- C4: data chunks arriving each within the base delay of the previous
one are coalesced into exactly one flush, whose buffered span is their
concatenation in original order and whose written bytes are the in-place
transform of that span. -/
theorem c4_single_flush_concat (cfg : FlushConfig)
    (chunks : List (Nat × List Char)) (hne : chunks ≠ [])
    (hchain : List.Chain' (fun a b => a.1 ≤ b.1 ∧ b.1 < a.1 + FLUSH_DELAY_MS) chunks)
    (hJ : (chunks.map Prod.snd).flatten ≠ []) :
    (runSched cfg chunks initSched).flushes =
      [((chunks.map Prod.snd).flatten,
        (processOutput cfg false (chunks.map Prod.snd).flatten).1)] := by
  match chunks, hne, hchain, hJ with
  | [], hne, _, _ => exact absurd rfl hne
  | (t, c) :: rest, _, hchain, hJ =>
    have hstep : runSched cfg ((t, c) :: rest) initSched =
        runSched cfg rest ⟨c, some (t + chooseDelay t 0), 0, false, false, []⟩ := by
      simp [runSched, initSched, onData]
    have hge := chooseDelay_ge t 0
    have hhd : ∀ p rest', rest = p :: rest' → p.1 < t + chooseDelay t 0 := by
      intro p rest' heq
      subst heq
      rcases List.chain'_cons.mp hchain with ⟨⟨hle, hlt⟩, -⟩
      have hlt' : p.1 < t + FLUSH_DELAY_MS := by simpa using hlt
      omega
    obtain ⟨d', heq⟩ := runSched_coalesce cfg rest
      ⟨c, some (t + chooseDelay t 0), 0, false, false, []⟩
      (t + chooseDelay t 0) rfl rfl hhd hchain.tail
    rw [hstep, heq]
    simp only [processAndFlush]
    rw [if_neg ?hcond]
    case hcond =>
      rintro (hb | hb)
      · exact hJ (by simpa using hb)
      · exact absurd hb (by simp)
    simp

/-- C4 witness: two chunks 10 ms apart (below the 16 ms base delay) yield
exactly one flush holding their concatenation. -/
theorem c4_witness :
    ([(0, ['a']), (10, ['b'])] : List (Nat × List Char)) ≠ [] ∧
    (runSched ⟨false, false, false, true, 24, 1⟩ [(0, ['a']), (10, ['b'])]
      initSched).flushes = [(['a', 'b'], ['a', 'b'])] := by
  refine ⟨by decide, ?_⟩
  rw [c4_single_flush_concat ⟨false, false, false, true, 24, 1⟩
    [(0, ['a']), (10, ['b'])] (by decide)
    (List.chain'_cons.mpr ⟨⟨by decide, by decide⟩, List.chain'_singleton _⟩)
    (by decide)]
  decide

/-- C7: the recency tracking behind the extended delay is dead code —
`lastFullRenderTime` is never assigned by any flush or data event, so a
chunk arriving 10 ms after a flush at time 1000 is scheduled with the base
delay `FLUSH_DELAY_MS`, although 10 ms is below the 200 ms recency
threshold and the claim requires the extended delay
`COALESCE_DELAY_MS`. -/
theorem c7_dead_recency_tracking :
    (∀ (cfg : FlushConfig) (st : SchedState),
      (processAndFlush cfg st).lastFullRenderTime = st.lastFullRenderTime) ∧
    (∀ (t : Nat) (c : List Char) (st : SchedState),
      (onData t c st).lastFullRenderTime = st.lastFullRenderTime) ∧
    (∀ cfg : FlushConfig,
      chooseDelay 1010
        ((processAndFlush cfg
          { initSched with
            buffer := ['\x1b', '[', '2', 'J']
            deadline := some 1000 }).lastFullRenderTime) = FLUSH_DELAY_MS) ∧
    1010 - 1000 < 200 ∧ FLUSH_DELAY_MS < COALESCE_DELAY_MS := by
  have h1 : ∀ (cfg : FlushConfig) (st : SchedState),
      (processAndFlush cfg st).lastFullRenderTime = st.lastFullRenderTime := by
    intro cfg st
    simp only [processAndFlush]
    split <;> rfl
  have h2 : ∀ (t : Nat) (c : List Char) (st : SchedState),
      (onData t c st).lastFullRenderTime = st.lastFullRenderTime := by
    intro t c st
    simp only [onData]
    split <;> rfl
  refine ⟨h1, h2, ?_, by decide, by decide⟩
  intro cfg
  rw [h1]
  decide

/-! ### Claims about teardown and keyboard forwarding -/

/-- C6: the teardown sequence and exit banner are not guaranteed to run at
most once per session.  When a terminating signal runs `cleanupAndKill`
and the wrapped process then exits (as it will, having been sent the
signal), the unguarded `onExit` handler repeats the region-reset/clear
sequence and the banner: the terminal sees each twice.  The buffered bytes
are written before the first banner, as the claim states. -/
theorem c6_double_teardown :
    (onExitHandler false true (cleanupAndKill false true
      { exiting := false, flushTimer := true, outputBuffer := ['x'], writes := [] })).writes =
      [TermWrite.raw ['x'], TermWrite.teardown, TermWrite.banner,
        TermWrite.teardown, TermWrite.banner] := by decide

/-- C9 counterexample: there is no single reserved byte sequence such that
exactly the chunks equal to it are consumed — the handler consumes at
least two distinct sequences. -/
theorem c9_not_single_sequence :
    ¬ ∃ hk : String, ∀ d : String,
      stdinHandler d = (if d = hk then none else some d) := by
  rintro ⟨hk, hall⟩
  have h1 := hall "\x1b[72;6u"
  have h2 := hall "\x08"
  rw [show stdinHandler "\x1b[72;6u" = none from by decide] at h1
  rw [show stdinHandler "\x08" = none from by decide] at h2
  by_cases hA : ("\x1b[72;6u" : String) = hk
  · by_cases hB : ("\x08" : String) = hk
    · exact absurd (hA.trans hB.symm) (by decide)
    · rw [if_neg hB] at h2
      exact Option.noConfusion h2
  · rw [if_neg hA] at h1
    exact Option.noConfusion h1

/-- C9 amended: keyboard chunks are forwarded to the wrapped process
verbatim except for the reserved hotkey, which the handler recognises
under three byte encodings (`ESC [72;6u`, `ESC [104;6u`, `\x08`), each
consumed and not forwarded. -/
theorem c9_hotkey_filtering :
    (∀ d : String, d ∉ hotkeySeqs → stdinHandler d = some d) ∧
    (∀ d ∈ hotkeySeqs, stdinHandler d = none) ∧
    (∀ chunks : List String, forwardedWrites chunks =
      chunks.filter (fun d => decide (d ∉ hotkeySeqs))) := by
  have hmem : ∀ d : String, d ∈ hotkeySeqs ↔
      (d = "\x1b[72;6u" ∨ d = "\x1b[104;6u" ∨ d = "\x08") := by
    intro d; simp [hotkeySeqs]
  have hsome : ∀ d : String, d ∉ hotkeySeqs → stdinHandler d = some d := by
    intro d hd
    simp only [stdinHandler]
    exact if_neg (fun hor => hd ((hmem d).mpr hor))
  have hnone : ∀ d ∈ hotkeySeqs, stdinHandler d = none := by
    intro d hd
    simp only [stdinHandler]
    exact if_pos ((hmem d).mp hd)
  refine ⟨hsome, hnone, ?_⟩
  intro chunks
  induction chunks with
  | nil => rfl
  | cons d rest ih =>
    simp only [forwardedWrites] at ih ⊢
    rw [List.filterMap_cons]
    by_cases hd : d ∈ hotkeySeqs
    · rw [hnone d hd, ih]
      rw [List.filter_cons, if_neg (by simpa using hd)]
    · rw [hsome d hd, ih]
      rw [List.filter_cons, if_pos (by simpa using hd)]

/-- C9 witness: an ordinary chunk is forwarded verbatim and the `\x08`
encoding is consumed. -/
theorem c9_witness :
    (("a" : String) ∉ hotkeySeqs ∧ stdinHandler "a" = some "a") ∧
    (("\x08" : String) ∈ hotkeySeqs ∧ stdinHandler "\x08" = none) :=
  ⟨⟨by decide, c9_hotkey_filtering.1 "a" (by decide)⟩,
    ⟨by decide, c9_hotkey_filtering.2.1 "\x08" (by decide)⟩⟩
